import Mathlib

/-
  Verification of the distributed FOF (friends-of-friends) MPI routines of
  VELOCIraptorSTF (src/src/mpiroutines.cxx), as a shallow embedding in Lean.

  Machine integers (`Int_t`, `int`) are modelled as `Int`/`Nat`; the values
  involved in every claim stay far from the 64-bit boundary, so no wrap-around
  is modelled.  Arrays are modelled as `List`/`Array` or as total functions
  when the source indexes them with particle ids.
-/

-- ===========================================================================
-- Transport chunking (MPIInitialzeCommChunks / MPIUpdateCommChunks,
-- src/src/mpiroutines.cxx lines 102-138)
-- ===========================================================================

/-- Exact integer ceiling of `a / b` for `b > 0`; embeds the source's
`ceil(static_cast<Double_t>(a)/static_cast<Double_t>(b))`. -/
def ceilDivInt (a b : Int) : Int := (a + b - 1) / b

/-- Embedding of `MPIInitialzeCommChunks` (mpiroutines.cxx:102-121).
Returns `(numsendrecv, cursendchunksize, currecvchunksize, sendoffset, recvoffset)`. -/
def MPIInitialzeCommChunks (nsend nrecv maxchunksize : Int) :
    Int × Int × Int × Int × Int :=
  let nsendchunks := ceilDivInt nsend maxchunksize
  let nrecvchunks := ceilDivInt nrecv maxchunksize
  let ps := if maxchunksize > nsend then ((1 : Int), nsend)
            else (nsendchunks, maxchunksize)
  let pr := if maxchunksize > nrecv then ((1 : Int), nrecv)
            else (nrecvchunks, maxchunksize)
  (max ps.1 pr.1, ps.2, pr.2, 0, 0)

/-- Embedding of `MPIUpdateCommChunks` (mpiroutines.cxx:130-138).
Takes and returns `(cursendchunksize, currecvchunksize, sendoffset, recvoffset)`. -/
def MPIUpdateCommChunks (nsend nrecv cursendchunksize currecvchunksize sendoffset recvoffset : Int) :
    Int × Int × Int × Int :=
  let sendoffset := sendoffset + cursendchunksize
  let recvoffset := recvoffset + currecvchunksize
  (min cursendchunksize (nsend - sendoffset),
   min currecvchunksize (nrecv - recvoffset),
   sendoffset, recvoffset)

/-- The per-round `(send size, receive size)` pairs produced by running
`numsendrecv` rounds of the chunk loop, each round using the current chunk
sizes and then calling `MPIUpdateCommChunks` (as in every chunked exchange
loop of mpiroutines.cxx). -/
def commRounds (nsend nrecv : Int) : Nat → Int × Int × Int × Int → List (Int × Int)
  | 0, _ => []
  | n + 1, st =>
    (st.1, st.2.1) ::
      commRounds nsend nrecv n
        (MPIUpdateCommChunks nsend nrecv st.1 st.2.1 st.2.2.1 st.2.2.2)

/-- The full chunk schedule of one pair: initialization followed by
`numsendrecv` rounds. -/
def chunkSchedule (nsend nrecv maxchunksize : Int) : List (Int × Int) :=
  let ini := MPIInitialzeCommChunks nsend nrecv maxchunksize
  commRounds nsend nrecv ini.1.toNat (ini.2.1, ini.2.2.1, ini.2.2.2.1, ini.2.2.2.2)

-- helper lemmas about ceilDivInt

lemma ceilDivInt_nonneg {a b : Int} (ha : 0 ≤ a) (hb : 0 < b) :
    0 ≤ ceilDivInt a b := by
  unfold ceilDivInt
  exact Int.ediv_nonneg (by omega) (by omega)

lemma le_ceilDivInt_mul {a b : Int} (ha : 0 ≤ a) (hb : 0 < b) :
    a ≤ ceilDivInt a b * b := by
  have hkey : b * ((a + b - 1) / b) + (a + b - 1) % b = a + b - 1 :=
    Int.ediv_add_emod (a + b - 1) b
  have hr0 : 0 ≤ (a + b - 1) % b := Int.emod_nonneg _ (by omega)
  have hr1 : (a + b - 1) % b < b := Int.emod_lt_of_pos _ hb
  have hmul : ceilDivInt a b * b = b * ((a + b - 1) / b) := by
    unfold ceilDivInt; ring
  rw [hmul]
  omega

lemma ceilDivInt_eq_one {a b : Int} (ha : 0 < a) (hab : a ≤ b) :
    ceilDivInt a b = 1 := by
  have hb : 0 < b := lt_of_lt_of_le ha hab
  have h1 : 1 ≤ (a + b - 1) / b := by
    rw [Int.le_ediv_iff_mul_le hb]
    omega
  have h2 : ¬ (2 ≤ (a + b - 1) / b) := by
    rw [Int.le_ediv_iff_mul_le hb]
    omega
  unfold ceilDivInt
  omega

lemma one_le_ceilDivInt {a b : Int} (ha : 0 < a) (hb : 0 < b) :
    1 ≤ ceilDivInt a b := by
  unfold ceilDivInt
  rw [Int.le_ediv_iff_mul_le hb]
  omega

-- invariant-carrying specification of the round loop

lemma commRounds_spec (nsend nrecv c0 d0 : Int) (hc0 : 0 ≤ c0) (hd0 : 0 ≤ d0) :
    ∀ (n : Nat) (cs cr so ro : Int),
      cs = min c0 (nsend - so) → so ≤ nsend → 0 ≤ so →
      cr = min d0 (nrecv - ro) → ro ≤ nrecv → 0 ≤ ro →
      (∀ p ∈ commRounds nsend nrecv n (cs, cr, so, ro),
          0 ≤ p.1 ∧ p.1 ≤ c0 ∧ 0 ≤ p.2 ∧ p.2 ≤ d0) ∧
      ((commRounds nsend nrecv n (cs, cr, so, ro)).map Prod.fst).sum
          = min (so + n * c0) nsend - so ∧
      ((commRounds nsend nrecv n (cs, cr, so, ro)).map Prod.snd).sum
          = min (ro + n * d0) nrecv - ro := by
  intro n
  induction n with
  | zero =>
    intro cs cr so ro hcs hso hso0 hcr hro hro0
    refine ⟨by simp [commRounds], ?_, ?_⟩ <;> simp [commRounds] <;> omega
  | succ n ih =>
    intro cs cr so ro hcs hso hso0 hcr hro hro0
    have hcs0 : 0 ≤ cs := by omega
    have hcr0 : 0 ≤ cr := by omega
    have hunf : commRounds nsend nrecv (n + 1) (cs, cr, so, ro)
        = (cs, cr) :: commRounds nsend nrecv n
            (MPIUpdateCommChunks nsend nrecv cs cr so ro) := rfl
    have hstep :
        MPIUpdateCommChunks nsend nrecv cs cr so ro
          = (min cs (nsend - (so + cs)), min cr (nrecv - (ro + cr)), so + cs, ro + cr) := rfl
    rw [hunf, hstep]
    have hcs' : min cs (nsend - (so + cs)) = min c0 (nsend - (so + cs)) := by omega
    have hcr' : min cr (nrecv - (ro + cr)) = min d0 (nrecv - (ro + cr)) := by omega
    have hrec := ih (min cs (nsend - (so + cs))) (min cr (nrecv - (ro + cr)))
      (so + cs) (ro + cr) hcs' (by omega) (by omega) hcr' (by omega) (by omega)
    have hn0 : 0 ≤ (n : Int) * c0 := mul_nonneg (Int.natCast_nonneg n) hc0
    have hm0 : 0 ≤ (n : Int) * d0 := mul_nonneg (Int.natCast_nonneg n) hd0
    have hcast : ((n + 1 : Nat) : Int) * c0 = (n : Int) * c0 + c0 := by push_cast; ring
    have hcastr : ((n + 1 : Nat) : Int) * d0 = (n : Int) * d0 + d0 := by push_cast; ring
    refine ⟨?_, ?_, ?_⟩
    · intro p hp
      rcases List.mem_cons.mp hp with h | h
      · subst h; exact ⟨hcs0, by omega, hcr0, by omega⟩
      · exact hrec.1 p h
    · rw [List.map_cons, List.sum_cons, hrec.2.1, hcast]
      clear ih hrec hunf hstep hcastr hm0
      generalize (n : Int) * c0 = t at hn0 ⊢
      omega
    · rw [List.map_cons, List.sum_cons, hrec.2.2, hcastr]
      clear ih hrec hunf hstep hcast hn0
      generalize (n : Int) * d0 = t at hm0 ⊢
      omega

lemma commRounds_length (nsend nrecv : Int) :
    ∀ (n : Nat) (st : Int × Int × Int × Int),
      (commRounds nsend nrecv n st).length = n := by
  intro n
  induction n with
  | zero => intro st; simp [commRounds]
  | succ n ih => intro st; simp [commRounds, ih]

/-- Claim C3: For every `nsend ≥ 0`, `nrecv ≥ 0` with `nsend + nrecv > 0` and every
`maxchunksize > 0`, the chunk schedule produced by `MPIInitialzeCommChunks`
followed by repeated `MPIUpdateCommChunks` performs exactly
`max(ceil(nsend/maxchunksize), ceil(nrecv/maxchunksize))` rounds when both
counts are nonzero (and at least one round otherwise), every per-round send and
receive size is non-negative and at most `maxchunksize`, and the per-round send
sizes sum to exactly `nsend` while the per-round receive sizes sum to exactly
`nrecv`. -/
theorem chunkSchedule_correct (nsend nrecv m : Int)
    (hns : 0 ≤ nsend) (hnr : 0 ≤ nrecv) (hpos : 0 < nsend + nrecv) (hm : 0 < m) :
    ((0 < nsend ∧ 0 < nrecv) →
      (chunkSchedule nsend nrecv m).length
        = (max (ceilDivInt nsend m) (ceilDivInt nrecv m)).toNat) ∧
    1 ≤ (chunkSchedule nsend nrecv m).length ∧
    (∀ p ∈ chunkSchedule nsend nrecv m, 0 ≤ p.1 ∧ p.1 ≤ m ∧ 0 ≤ p.2 ∧ p.2 ≤ m) ∧
    ((chunkSchedule nsend nrecv m).map Prod.fst).sum = nsend ∧
    ((chunkSchedule nsend nrecv m).map Prod.snd).sum = nrecv := by
  -- unfold the initialization into the branch data
  have hini : MPIInitialzeCommChunks nsend nrecv m
      = (max (if m > nsend then 1 else ceilDivInt nsend m)
             (if m > nrecv then 1 else ceilDivInt nrecv m),
         (if m > nsend then nsend else m),
         (if m > nrecv then nrecv else m), 0, 0) := by
    simp only [MPIInitialzeCommChunks]
    split <;> split <;> rfl
  set ns := (if m > nsend then 1 else ceilDivInt nsend m) with hnsdef
  set nr := (if m > nrecv then 1 else ceilDivInt nrecv m) with hnrdef
  set c0 := (if m > nsend then nsend else m) with hc0def
  set d0 := (if m > nrecv then nrecv else m) with hd0def
  have hc0a : 0 ≤ c0 := by rw [hc0def]; split <;> omega
  have hd0a : 0 ≤ d0 := by rw [hd0def]; split <;> omega
  have hc0min : c0 = min m nsend := by rw [hc0def]; split <;> omega
  have hd0min : d0 = min m nrecv := by rw [hd0def]; split <;> omega
  have hns1 : 1 ≤ ns := by
    rw [hnsdef]; split
    · omega
    · exact one_le_ceilDivInt (by omega) hm
  have hnr1 : 1 ≤ nr := by
    rw [hnrdef]; split
    · omega
    · exact one_le_ceilDivInt (by omega) hm
  have hnum : (MPIInitialzeCommChunks nsend nrecv m).1 = max ns nr := by rw [hini]
  have hsched : chunkSchedule nsend nrecv m
      = commRounds nsend nrecv (max ns nr).toNat (c0, d0, 0, 0) := by
    simp only [chunkSchedule, hini]
  -- the number of rounds, cast back to Int
  have hmaxpos : 1 ≤ max ns nr := le_trans hns1 (le_max_left _ _)
  have htn : ((max ns nr).toNat : Int) = max ns nr := Int.toNat_of_nonneg (by omega)
  -- the send side covers nsend within ns rounds, similarly for receive
  have hcov_s : nsend ≤ ns * c0 := by
    rw [hnsdef, hc0def]
    split
    · omega
    · exact le_ceilDivInt_mul hns hm
  have hcov_r : nrecv ≤ nr * d0 := by
    rw [hnrdef, hd0def]
    split
    · omega
    · exact le_ceilDivInt_mul hnr hm
  have hcov_s2 : nsend ≤ max ns nr * c0 :=
    le_trans hcov_s (mul_le_mul_of_nonneg_right (le_max_left _ _) hc0a)
  have hcov_r2 : nrecv ≤ max ns nr * d0 :=
    le_trans hcov_r (mul_le_mul_of_nonneg_right (le_max_right _ _) hd0a)
  have hspec := commRounds_spec nsend nrecv c0 d0 hc0a hd0a (max ns nr).toNat
    c0 d0 0 0 (by omega) hns (le_refl 0) (by omega) hnr (le_refl 0)
  refine ⟨?_, ?_, ?_, ?_, ?_⟩
  · intro ⟨hnsp, hnrp⟩
    rw [hsched, commRounds_length]
    have hceq : ns = ceilDivInt nsend m := by
      rw [hnsdef]; split
      · exact (ceilDivInt_eq_one hnsp (by omega)).symm
      · rfl
    have hreq : nr = ceilDivInt nrecv m := by
      rw [hnrdef]; split
      · exact (ceilDivInt_eq_one hnrp (by omega)).symm
      · rfl
    rw [hceq, hreq]
  · rw [hsched, commRounds_length]
    omega
  · intro p hp
    rw [hsched] at hp
    have := hspec.1 p hp
    have hc0m : c0 ≤ m := by rw [hc0def]; split <;> omega
    have hd0m : d0 ≤ m := by rw [hd0def]; split <;> omega
    exact ⟨this.1, le_trans this.2.1 hc0m, this.2.2.1, le_trans this.2.2.2 hd0m⟩
  · rw [hsched, hspec.2.1, htn]
    omega
  · rw [hsched, hspec.2.2, htn]
    omega

/-- Witness for `chunkSchedule_correct` at `nsend = 5`, `nrecv = 2`,
`maxchunksize = 2`: 3 rounds, send sizes `[2,2,1]`, receive sizes `[2,0,0]`. -/
theorem chunkSchedule_correct_witness :
    (0 : Int) ≤ 5 ∧ (0 : Int) ≤ 2 ∧ (0 : Int) < 5 + 2 ∧ (0 : Int) < 2 ∧
    ((chunkSchedule 5 2 2).map Prod.fst).sum = 5 :=
  ⟨by decide, by decide, by decide, by decide,
    (chunkSchedule_correct 5 2 2 (by decide) (by decide) (by decide) (by decide)).2.2.2.1⟩

-- ===========================================================================
-- Cross-domain linking: MPILinkAcross (mpiroutines.cxx:4319-4383)
-- ===========================================================================

/-- Immutable per-particle arrays consumed by `MPILinkAcross`:
`partID k` is `Part[k].GetID()` (the index into `pfof`/`mpi_foftask`),
`partPID k` is `Part[k].GetPID()`, `head`/`next` are the serial-FOF chain
arrays `Head`/`Next` (`next` is negative at the end of a chain). -/
structure PartArrays where
  partID : Nat → Nat
  partPID : Nat → Int
  head : Nat → Nat
  next : Nat → Int

/-- One imported FOF record (`struct fofdata_in` fields used by the merge). -/
structure FofDataRec where
  iGroup : Int
  iGroupTask : Int
  iLen : Int

/-- Mutable state of `MPILinkAcross`: the group label table `pfof`, the chain
length array `Len`, the group ownership table `mpi_foftask`, the id-allocation
offset `mpi_gidoffset` and the link counter. -/
structure LinkState where
  pfof : Nat → Int
  len : Nat → Int
  foftask : Nat → Int
  gidoffset : Int
  links : Int

/-- Pointwise array update. -/
def updFun (f : Nat → Int) (i : Nat) (v : Int) : Nat → Int :=
  fun j => if j = i then v else f j

/-- The do-while chain walk of mpiroutines.cxx:4356-4362: starting at `ss`,
relabel `pfof` and `mpi_foftask` (keyed by particle id) to `g`/`gtask` and set
`Len` to `newlen`, following `next` while it is non-negative.  `fuel` bounds
the walk; any fuel at least the chain length reproduces the source loop, which
terminates because the serial-FOF `Next` chains are finite. -/
def relabelChain (P : PartArrays) (g gtask newlen : Int) :
    Nat → Nat → LinkState → LinkState
  | 0, _, st => st
  | fuel + 1, ss, st =>
    let st' : LinkState :=
      { st with
        pfof := updFun st.pfof (P.partID ss) g,
        foftask := updFun st.foftask (P.partID ss) gtask,
        len := updFun st.len ss newlen }
    if 0 ≤ P.next ss then relabelChain P g gtask newlen fuel (P.next ss).toNat st'
    else st'

/-- One `(imported record, ball-search candidate k)` step of the first
`MPILinkAcross` overload (mpiroutines.cxx:4329-4378).  `maxgid` is
`mpi_maxgid`, `fpid` is the imported particle's PID (`PartDataGet[i].GetPID()`).
Returns the updated state together with the updated record (the source mutates
`FoFDataGet[i].iLen`). -/
def linkAcrossCandidate (maxgid : Int) (P : PartArrays) (fr : FofDataRec)
    (fpid : Int) (k : Nat) (fuel : Nat) (st : LinkState) : LinkState × FofDataRec :=
  if fr.iGroup = 0 then
    -- imported particle ungrouped (mpiroutines.cxx:4332-4347)
    if st.pfof (P.partID (P.head k)) = 0 ∧ P.partPID (P.head k) > fpid then
      ({ st with
         pfof := updFun st.pfof (P.partID k) (maxgid + st.gidoffset),
         gidoffset := st.gidoffset + 1,
         len := updFun st.len k 1,
         foftask := updFun st.foftask (P.partID k) fr.iGroupTask,
         links := st.links + 1 }, fr)
    else (st, fr)
  else
    if st.pfof (P.partID (P.head k)) > 0 then
      -- both grouped (mpiroutines.cxx:4351-4369)
      if st.pfof (P.partID (P.head k)) > fr.iGroup then
        ((relabelChain P fr.iGroup fr.iGroupTask (fr.iLen + st.len k) fuel (P.head k)
            { st with links := st.links + 1 }),
         { fr with iLen := fr.iLen + st.len k })
      else (st, fr)
    else
      -- imported grouped, local ungrouped (mpiroutines.cxx:4371-4377)
      ({ st with
         pfof := updFun st.pfof (P.partID k) fr.iGroup,
         len := updFun st.len k fr.iLen,
         foftask := updFun st.foftask (P.partID k) fr.iGroupTask,
         links := st.links + 1 }, { fr with iLen := fr.iLen + 1 })

/-- Chain predicate `FofChain P s l`: following `P.next` from `s` until a negative entry visits
exactly the indices of `l` (the chain the do-while loop walks). -/
inductive FofChain (P : PartArrays) : Nat → List Nat → Prop
  | last (s : Nat) : P.next s < 0 → FofChain P s [s]
  | cons (s : Nat) (l : List Nat) :
      0 ≤ P.next s → FofChain P (P.next s).toNat l → FofChain P s (s :: l)

lemma relabelChain_zero (P : PartArrays) (g gtask newlen : Int) (ss : Nat) (st : LinkState) :
    relabelChain P g gtask newlen 0 ss st = st := rfl

lemma relabelChain_succ (P : PartArrays) (g gtask newlen : Int) (fuel ss : Nat) (st : LinkState) :
    relabelChain P g gtask newlen (fuel + 1) ss st
      = (if 0 ≤ P.next ss then
          relabelChain P g gtask newlen fuel (P.next ss).toNat
            { st with
              pfof := updFun st.pfof (P.partID ss) g,
              foftask := updFun st.foftask (P.partID ss) gtask,
              len := updFun st.len ss newlen }
         else
          { st with
            pfof := updFun st.pfof (P.partID ss) g,
            foftask := updFun st.foftask (P.partID ss) gtask,
            len := updFun st.len ss newlen }) := rfl

lemma relabelChain_spec (P : PartArrays) (g gtask newlen : Int) :
    ∀ (l : List Nat) (s : Nat) (st : LinkState) (fuel : Nat),
      FofChain P s l → l.length ≤ fuel →
      (∀ j ∈ l,
        (relabelChain P g gtask newlen fuel s st).pfof (P.partID j) = g ∧
        (relabelChain P g gtask newlen fuel s st).foftask (P.partID j) = gtask ∧
        (relabelChain P g gtask newlen fuel s st).len j = newlen) ∧
      (∀ x : Nat, x ∉ l.map P.partID →
        (relabelChain P g gtask newlen fuel s st).pfof x = st.pfof x ∧
        (relabelChain P g gtask newlen fuel s st).foftask x = st.foftask x) ∧
      (∀ j : Nat, j ∉ l →
        (relabelChain P g gtask newlen fuel s st).len j = st.len j) ∧
      (relabelChain P g gtask newlen fuel s st).gidoffset = st.gidoffset ∧
      (relabelChain P g gtask newlen fuel s st).links = st.links := by
  intro l
  induction l with
  | nil =>
    intro s st fuel hchain
    cases hchain
  | cons a l ih =>
    intro s st fuel hchain hfuel
    obtain ⟨fuel, rfl⟩ : ∃ f, fuel = f + 1 := by
      cases fuel with
      | zero => simp at hfuel
      | succ f => exact ⟨f, rfl⟩
    cases hchain with
    | last _ hneg =>
      have hrel : relabelChain P g gtask newlen (fuel + 1) a st
          = { st with
              pfof := updFun st.pfof (P.partID a) g,
              foftask := updFun st.foftask (P.partID a) gtask,
              len := updFun st.len a newlen } := by
        rw [relabelChain_succ, if_neg (by omega)]
      rw [hrel]
      refine ⟨?_, ?_, ?_, rfl, rfl⟩
      · intro j hj
        rcases List.mem_singleton.mp hj with rfl
        exact ⟨by simp [updFun], by simp [updFun], by simp [updFun]⟩
      · intro x hx
        simp only [List.map_cons, List.map_nil, List.mem_singleton] at hx
        exact ⟨by simp [updFun, if_neg hx], by simp [updFun, if_neg hx]⟩
      · intro j hj
        simp only [List.mem_singleton] at hj
        simp [updFun, if_neg hj]
    | cons _ _ hnn htail =>
      have hrel : relabelChain P g gtask newlen (fuel + 1) a st
          = relabelChain P g gtask newlen fuel (P.next a).toNat
              { st with
                pfof := updFun st.pfof (P.partID a) g,
                foftask := updFun st.foftask (P.partID a) gtask,
                len := updFun st.len a newlen } := by
        rw [relabelChain_succ, if_pos hnn]
      rw [hrel]
      have hlen : l.length ≤ fuel := by
        simp only [List.length_cons] at hfuel; omega
      have hih := ih (P.next a).toNat
        { st with
          pfof := updFun st.pfof (P.partID a) g,
          foftask := updFun st.foftask (P.partID a) gtask,
          len := updFun st.len a newlen } fuel htail hlen
      refine ⟨?_, ?_, ?_, ?_, ?_⟩
      · intro j hj
        rcases List.mem_cons.mp hj with rfl | hj
        · by_cases hmem : P.partID j ∈ l.map P.partID
          · obtain ⟨j1, hj1, hid⟩ := List.mem_map.mp hmem
            have h1 := (hih.1 j1 hj1).1
            have h2 := (hih.1 j1 hj1).2.1
            rw [hid] at h1 h2
            refine ⟨h1, h2, ?_⟩
            by_cases hjl : j ∈ l
            · exact (hih.1 j hjl).2.2
            · rw [hih.2.2.1 j hjl]
              simp [updFun]
          · have h := hih.2.1 (P.partID j) hmem
            rw [h.1, h.2]
            refine ⟨by simp [updFun], by simp [updFun], ?_⟩
            by_cases hjl : j ∈ l
            · exact (hih.1 j hjl).2.2
            · rw [hih.2.2.1 j hjl]
              simp [updFun]
        · exact ⟨(hih.1 j hj).1, (hih.1 j hj).2.1, (hih.1 j hj).2.2⟩
      · intro x hx
        simp only [List.map_cons, List.mem_cons] at hx
        push_neg at hx
        have h := hih.2.1 x (by simpa using hx.2)
        rw [h.1, h.2]
        exact ⟨by simp [updFun, if_neg hx.1], by simp [updFun, if_neg hx.1]⟩
      · intro j hj
        simp only [List.mem_cons] at hj
        push_neg at hj
        rw [hih.2.2.1 j hj.2]
        simp [updFun, if_neg hj.1]
      · exact hih.2.2.2.1
      · exact hih.2.2.2.2

/-- Claim C1, amended: In `MPILinkAcross`, for an imported record with nonzero
group id and a local ball-search candidate whose group head is already grouped,
the entire local chain (walked via `Head`/`Next`) is relabelled to the imported
group id with lengths accumulated (`Len := iLen + oldlen`, and the record's
`iLen` grows by `oldlen`) exactly when the LOCAL group id numerically exceeds
the foreign group id; in all other cases the local labels are left unchanged.
(The source comment at mpiroutines.cxx:4313-4316 agrees: the local group is
adjusted "if the group id of the exported particle is smaller".) -/
theorem linkAcross_bothGrouped_relabel_iff (maxgid : Int) (P : PartArrays)
    (fr : FofDataRec) (fpid : Int) (k fuel : Nat) (st : LinkState) (l : List Nat)
    (hg : fr.iGroup ≠ 0)
    (hlocal : 0 < st.pfof (P.partID (P.head k)))
    (hchain : FofChain P (P.head k) l)
    (hfuel : l.length ≤ fuel) :
    (fr.iGroup < st.pfof (P.partID (P.head k)) →
      (∀ j ∈ l,
        (linkAcrossCandidate maxgid P fr fpid k fuel st).1.pfof (P.partID j) = fr.iGroup ∧
        (linkAcrossCandidate maxgid P fr fpid k fuel st).1.foftask (P.partID j) = fr.iGroupTask ∧
        (linkAcrossCandidate maxgid P fr fpid k fuel st).1.len j = fr.iLen + st.len k) ∧
      (∀ x : Nat, x ∉ l.map P.partID →
        (linkAcrossCandidate maxgid P fr fpid k fuel st).1.pfof x = st.pfof x) ∧
      (linkAcrossCandidate maxgid P fr fpid k fuel st).2.iLen = fr.iLen + st.len k ∧
      (linkAcrossCandidate maxgid P fr fpid k fuel st).1.links = st.links + 1) ∧
    (st.pfof (P.partID (P.head k)) ≤ fr.iGroup →
      linkAcrossCandidate maxgid P fr fpid k fuel st = (st, fr)) := by
  constructor
  · intro hgt
    have hres : linkAcrossCandidate maxgid P fr fpid k fuel st
        = (relabelChain P fr.iGroup fr.iGroupTask (fr.iLen + st.len k) fuel (P.head k)
            { st with links := st.links + 1 },
           { fr with iLen := fr.iLen + st.len k }) := by
      unfold linkAcrossCandidate
      rw [if_neg hg, if_pos hlocal, if_pos hgt]
    have hspec := relabelChain_spec P fr.iGroup fr.iGroupTask (fr.iLen + st.len k)
      l (P.head k) { st with links := st.links + 1 } fuel hchain hfuel
    rw [hres]
    exact ⟨fun j hj => hspec.1 j hj, fun x hx => (hspec.2.1 x hx).1, rfl, hspec.2.2.2.2⟩
  · intro hle
    unfold linkAcrossCandidate
    rw [if_neg hg, if_pos hlocal, if_neg (not_lt.mpr hle)]

/-- Witness for `linkAcross_bothGrouped_relabel_iff`: one local particle in
group 3 with chain `[0]`; an imported record with group 2 < 3 relabels it to 2. -/
theorem linkAcross_bothGrouped_relabel_iff_witness :
    (linkAcrossCandidate 0 ⟨fun _ => 0, fun _ => 0, fun _ => 0, fun _ => -1⟩ ⟨2, 7, 5⟩ 0 0 1
      ⟨fun _ => 3, fun _ => 2, fun _ => 9, 0, 0⟩).1.pfof 0 = 2 := by
  have h := (linkAcross_bothGrouped_relabel_iff 0
      ⟨fun _ => 0, fun _ => 0, fun _ => 0, fun _ => -1⟩ ⟨2, 7, 5⟩ 0 0 1
      ⟨fun _ => 3, fun _ => 2, fun _ => 9, 0, 0⟩ [0]
      (by decide) (by decide) (FofChain.last 0 (by decide)) (by decide)).1 (by decide)
  exact (h.1 0 (List.mem_singleton.mpr rfl)).1

/-- Claim C1 counterexample: Local chain in group 1, imported record in group 2:
the foreign id numerically exceeds the local one, so the claim as stated
requires the chain to be relabelled to 2, but the code leaves the local label
at 1 (the source relabels only when the local id is larger). -/
theorem linkAcross_bothGrouped_claim_counterexample :
    (2 : Int) > 1 ∧
    (linkAcrossCandidate 0 ⟨fun _ => 0, fun _ => 0, fun _ => 0, fun _ => -1⟩ ⟨2, 7, 5⟩ 0 0 1
      ⟨fun _ => 1, fun _ => 1, fun _ => 9, 0, 0⟩).1.pfof 0 = 1 ∧ (1 : Int) ≠ 2 :=
  ⟨by decide, rfl, by decide⟩

/-- Claim C2, amended: In `MPILinkAcross`, for an imported record with group id 0
and a local candidate whose group head is ungrouped: a new globally-reserved
group id `mpi_maxgid + mpi_gidoffset` is allocated (offset incremented, local
length set to 1, the foreign process recorded as group owner) exactly when the
LOCAL head's PID exceeds the foreign particle's PID; when the local head's PID
is at most the foreign PID nothing is changed (the other side handles it). -/
theorem linkAcross_ungrouped_allocate_iff (maxgid : Int) (P : PartArrays)
    (fr : FofDataRec) (fpid : Int) (k fuel : Nat) (st : LinkState)
    (hg : fr.iGroup = 0)
    (hhead : st.pfof (P.partID (P.head k)) = 0) :
    (fpid < P.partPID (P.head k) →
      linkAcrossCandidate maxgid P fr fpid k fuel st
        = ({ st with
             pfof := updFun st.pfof (P.partID k) (maxgid + st.gidoffset),
             gidoffset := st.gidoffset + 1,
             len := updFun st.len k 1,
             foftask := updFun st.foftask (P.partID k) fr.iGroupTask,
             links := st.links + 1 }, fr)) ∧
    (P.partPID (P.head k) ≤ fpid →
      linkAcrossCandidate maxgid P fr fpid k fuel st = (st, fr)) := by
  constructor
  · intro hpid
    unfold linkAcrossCandidate
    rw [if_pos hg, if_pos ⟨hhead, hpid⟩]
  · intro hle
    unfold linkAcrossCandidate
    rw [if_pos hg, if_neg (fun h => absurd h.2 (not_lt.mpr hle))]

/-- Witness for `linkAcross_ungrouped_allocate_iff`: ungrouped on both sides,
local head PID 5 > foreign PID 3, `mpi_maxgid = 100`, `mpi_gidoffset = 0`:
the candidate receives the fresh id 100. -/
theorem linkAcross_ungrouped_allocate_iff_witness :
    (linkAcrossCandidate 100 ⟨fun _ => 0, fun _ => 5, fun _ => 0, fun _ => -1⟩ ⟨0, 7, 0⟩ 3 0 1
      ⟨fun _ => 0, fun _ => 0, fun _ => 0, 0, 0⟩).1.pfof 0 = 100 := by
  have h := (linkAcross_ungrouped_allocate_iff 100
      ⟨fun _ => 0, fun _ => 5, fun _ => 0, fun _ => -1⟩ ⟨0, 7, 0⟩ 3 0 1
      ⟨fun _ => 0, fun _ => 0, fun _ => 0, 0, 0⟩ (by decide) (by decide)).1 (by decide)
  rw [h]
  rfl

/-- Claim C2 counterexample: Local head PID 5 exceeds the foreign PID 3, so the
claim as stated requires nothing to change, yet the code allocates the new
group id 100 (= `mpi_maxgid + mpi_gidoffset`) to the local candidate; the
allocation happens on the side the claim says stays idle. -/
theorem linkAcross_ungrouped_claim_counterexample :
    (5 : Int) > 3 ∧
    (linkAcrossCandidate 100 ⟨fun _ => 0, fun _ => 5, fun _ => 0, fun _ => -1⟩ ⟨0, 7, 0⟩ 3 0 1
      ⟨fun _ => 0, fun _ => 0, fun _ => 0, 0, 0⟩).1.pfof 0 = 100 ∧ (100 : Int) ≠ 0 :=
  ⟨by decide, rfl, by decide⟩

-- ===========================================================================
-- Group compaction: the size-filter loop of MPICompileGroups
-- (mpiroutines.cxx:4831-4839)
-- ===========================================================================

/-- Array read `Part[i].GetID()`; the source only reads in bounds. -/
def idRead (l : List Int) (i : Nat) : Int := (l[i]?).getD 0

/-- The inner reset loop `for (j=start;j<i;j++) Part[j].SetID(0)`
(mpiroutines.cxx:4834): set entries with index in `[s, e)` to 0. -/
def zeroSeg : List Int → Nat → Nat → List Int
  | [], _, _ => []
  | x :: xs, s, e =>
    if s = 0 then
      if e = 0 then x :: xs
      else 0 :: zeroSeg xs 0 (e - 1)
    else x :: zeroSeg xs (s - 1) (e - 1)

/-- The run-counting / size-filter loop of `MPICompileGroups`
(mpiroutines.cxx:4831-4839) over the array of embedded ids
(`Part[i].GetID() == -group`), one fuel unit per iteration of the `for` loop;
`s` is `start`, `ng` is `ngroups`.  The loop breaks once `Part[i].GetID()>=0`. -/
def groupFilterGo (m : Int) : Nat → List Int → Nat → Nat → Int → List Int × Int
  | 0, l, _, _, ng => (l, ng)
  | fuel + 1, l, i, s, ng =>
    if i < l.length then
      if idRead l i ≠ idRead l s then
        if ((i : Int) - (s : Int)) < m then
          if 0 ≤ idRead (zeroSeg l s i) i then (zeroSeg l s i, ng)
          else groupFilterGo m fuel (zeroSeg l s i) (i + 1) i ng
        else
          if 0 ≤ idRead l i then (l, ng + 1)
          else groupFilterGo m fuel l (i + 1) i (ng + 1)
      else
        if 0 ≤ idRead l i then (l, ng)
        else groupFilterGo m fuel l (i + 1) s ng
    else (l, ng)

/-- The filter loop started as in the source: `i = start = 0`, `ngroups = 0`,
running to completion (the fuel `l.length` covers every iteration). -/
def groupFilterLoop (m : Int) (l : List Int) : List Int × Int :=
  groupFilterGo m l.length l 0 0 0

/-- Run-length decomposition `(value, count)` flattened back to the array. -/
def flattenRuns (rs : List (Int × Nat)) : List Int :=
  rs.flatMap (fun r => List.replicate r.2 r.1)

/-- Well-formed run decomposition continuing a run of value `vprev`: every run
is nonempty, adjacent values differ, values are `≤ 0` (ids are `-group`), and
only the final run may hold the ungrouped value 0 (the arrays reaching the
filter loop are sorted so that ungrouped particles are last). -/
def RunsOK : Int → List (Int × Nat) → Prop
  | _, [] => True
  | vprev, r :: rest =>
      0 < r.2 ∧ r.1 ≠ vprev ∧ r.1 ≤ 0 ∧ (rest ≠ [] → r.1 < 0) ∧ RunsOK r.1 rest

/-- What the loop does to the run decomposition: every run except the final
one has its value zeroed exactly when its length is below `minsize`; the final
run is never examined. -/
def filterRunsSpec (m : Int) : List (Int × Nat) → List (Int × Nat)
  | [] => []
  | [r] => [r]
  | r :: r2 :: rest =>
      (if (r.2 : Int) < m then ((0 : Int), r.2) else r) :: filterRunsSpec m (r2 :: rest)

/-- Number of non-final runs kept (length at least `minsize`) — the `ngroups`
the loop counts. -/
def countKeptRuns (m : Int) : List (Int × Nat) → Int
  | [] => 0
  | [_] => 0
  | r :: r2 :: rest =>
      (if (r.2 : Int) < m then 0 else 1) + countKeptRuns m (r2 :: rest)

lemma zeroSeg_length : ∀ (l : List Int) (s e : Nat), (zeroSeg l s e).length = l.length := by
  intro l
  induction l with
  | nil => intro s e; rfl
  | cons x xs ih =>
    intro s e
    by_cases hs : s = 0
    · by_cases he : e = 0
      · simp [zeroSeg, hs, he]
      · simp [zeroSeg, hs, he, ih]
    · simp [zeroSeg, hs, ih]

lemma zeroSeg_getElem?_out :
    ∀ (l : List Int) (s e j : Nat), (j < s ∨ e ≤ j) → (zeroSeg l s e)[j]? = l[j]? := by
  intro l
  induction l with
  | nil => intro s e j _; rfl
  | cons x xs ih =>
    intro s e j h
    by_cases hs : s = 0
    · subst hs
      by_cases he : e = 0
      · simp [zeroSeg, he]
      · have hz : zeroSeg (x :: xs) 0 e = 0 :: zeroSeg xs 0 (e - 1) := by
          simp [zeroSeg, he]
        rw [hz]
        obtain ⟨j1, rfl⟩ : ∃ j1, j = j1 + 1 := ⟨j - 1, by omega⟩
        simp only [List.getElem?_cons_succ]
        exact ih 0 (e - 1) j1 (by omega)
    · have hz : zeroSeg (x :: xs) s e = x :: zeroSeg xs (s - 1) (e - 1) := by
        simp [zeroSeg, hs]
      rw [hz]
      cases j with
      | zero => simp
      | succ j1 =>
        simp only [List.getElem?_cons_succ]
        exact ih (s - 1) (e - 1) j1 (by omega)

lemma zeroSeg_getElem?_in :
    ∀ (l : List Int) (s e j : Nat), s ≤ j → j < e → j < l.length →
      (zeroSeg l s e)[j]? = some 0 := by
  intro l
  induction l with
  | nil => intro s e j _ _ h; simp at h
  | cons x xs ih =>
    intro s e j hsj hje hjl
    by_cases hs : s = 0
    · subst hs
      have he : e ≠ 0 := by omega
      have hz : zeroSeg (x :: xs) 0 e = 0 :: zeroSeg xs 0 (e - 1) := by
        simp [zeroSeg, he]
      rw [hz]
      cases j with
      | zero => simp
      | succ j1 =>
        simp only [List.getElem?_cons_succ]
        exact ih 0 (e - 1) j1 (by omega) (by omega) (by simp at hjl; omega)
    · have hz : zeroSeg (x :: xs) s e = x :: zeroSeg xs (s - 1) (e - 1) := by
        simp [zeroSeg, hs]
      rw [hz]
      obtain ⟨j1, rfl⟩ : ∃ j1, j = j1 + 1 := ⟨j - 1, by omega⟩
      simp only [List.getElem?_cons_succ]
      exact ih (s - 1) (e - 1) j1 (by omega) (by omega) (by simp at hjl; omega)

lemma lt_length_of_getElem?_some {α : Type} {l : List α} {i : Nat} {x : α}
    (h : l[i]? = some x) : i < l.length := by
  by_contra hn
  push_neg at hn
  rw [List.getElem?_eq_none hn] at h
  exact Option.noConfusion h

lemma idRead_eq_of_some {l : List Int} {i : Nat} {x : Int} (h : l[i]? = some x) :
    idRead l i = x := by
  simp [idRead, h]

lemma groupFilterGo_zero (m : Int) (l : List Int) (i s : Nat) (ng : Int) :
    groupFilterGo m 0 l i s ng = (l, ng) := rfl

lemma groupFilterGo_succ (m : Int) (fuel : Nat) (l : List Int) (i s : Nat) (ng : Int) :
    groupFilterGo m (fuel + 1) l i s ng
      = (if i < l.length then
          if idRead l i ≠ idRead l s then
            if ((i : Int) - (s : Int)) < m then
              if 0 ≤ idRead (zeroSeg l s i) i then (zeroSeg l s i, ng)
              else groupFilterGo m fuel (zeroSeg l s i) (i + 1) i ng
            else
              if 0 ≤ idRead l i then (l, ng + 1)
              else groupFilterGo m fuel l (i + 1) i (ng + 1)
          else
            if 0 ≤ idRead l i then (l, ng)
            else groupFilterGo m fuel l (i + 1) s ng
        else (l, ng)) := rfl

lemma groupFilterGo_walk (m v : Int) (hv : v < 0) :
    ∀ (d fuel : Nat) (l : List Int) (i s : Nat) (ng : Int),
      l[s]? = some v →
      (∀ t, t < d → l[i + t]? = some v) →
      groupFilterGo m (d + fuel) l i s ng = groupFilterGo m fuel l (i + d) s ng := by
  intro d
  induction d with
  | zero => intro fuel l i s ng _ _; simp
  | succ d ih =>
    intro fuel l i s ng hs hrun
    have hi : l[i]? = some v := by simpa using hrun 0 (by omega)
    have hlen : i < l.length := lt_length_of_getElem?_some hi
    rw [show d + 1 + fuel = (d + fuel) + 1 by omega, groupFilterGo_succ, if_pos hlen,
      idRead_eq_of_some hi, idRead_eq_of_some hs, if_neg (by simp), if_neg (by omega),
      show i + (d + 1) = (i + 1) + d by omega]
    exact ih fuel l (i + 1) s ng hs
      (fun t ht => by
        have h2 := hrun (t + 1) (by omega)
        rwa [show i + (t + 1) = i + 1 + t by omega] at h2)

lemma flattenRuns_nil : flattenRuns [] = [] := rfl

lemma flattenRuns_cons (r : Int × Nat) (rs : List (Int × Nat)) :
    flattenRuns (r :: rs) = List.replicate r.2 r.1 ++ flattenRuns rs := by
  simp [flattenRuns]

lemma replicate_getElem? (c : Nat) (v : Int) (t : Nat) (h : t < c) :
    (List.replicate c v)[t]? = some v := by
  simp [List.getElem?_replicate, h]

lemma filterRunsSpec_single (m : Int) (r : Int × Nat) :
    filterRunsSpec m [r] = [r] := rfl

lemma filterRunsSpec_cons2 (m : Int) (r r2 : Int × Nat) (rest : List (Int × Nat)) :
    filterRunsSpec m (r :: r2 :: rest)
      = (if (r.2 : Int) < m then ((0 : Int), r.2) else r) :: filterRunsSpec m (r2 :: rest) := rfl

lemma countKeptRuns_single (m : Int) (r : Int × Nat) : countKeptRuns m [r] = 0 := rfl

lemma countKeptRuns_cons2 (m : Int) (r r2 : Int × Nat) (rest : List (Int × Nat)) :
    countKeptRuns m (r :: r2 :: rest)
      = (if (r.2 : Int) < m then 0 else 1) + countKeptRuns m (r2 :: rest) := rfl

lemma RunsOK_cons (vp : Int) (r : Int × Nat) (rest : List (Int × Nat)) :
    RunsOK vp (r :: rest)
      = (0 < r.2 ∧ r.1 ≠ vp ∧ r.1 ≤ 0 ∧ (rest ≠ [] → r.1 < 0) ∧ RunsOK r.1 rest) := rfl

lemma list_decomp (l2 l : List Int) (s : Nat) (xs : List Int)
    (hlen2 : l2.length = s + xs.length)
    (hslen : s ≤ l.length)
    (hpre : ∀ j, j < s → l2[j]? = l[j]?)
    (hsuf : ∀ t, t < xs.length → l2[s + t]? = xs[t]?) :
    l2 = l.take s ++ xs := by
  have htl : (l.take s).length = s := by
    simp [List.length_take]
    omega
  apply List.ext_getElem?
  intro j
  by_cases h1 : j < s
  · rw [List.getElem?_append_left (by omega), List.getElem?_take_of_lt h1]
    exact hpre j h1
  · by_cases h2 : j < s + xs.length
    · rw [List.getElem?_append_right (by omega), htl]
      have := hsuf (j - s) (by omega)
      rwa [show s + (j - s) = j by omega] at this
    · rw [List.getElem?_eq_none (by omega),
        List.getElem?_eq_none (by simp [htl]; omega)]

lemma groupFilterGo_runs (m : Int) :
    ∀ (rs : List (Int × Nat)) (l : List Int) (s : Nat) (v : Int) (c : Nat) (ng : Int),
      0 < c → v < 0 → RunsOK v rs →
      (∀ t, t < c → l[s + t]? = some v) →
      (∀ t : Nat, (flattenRuns rs)[t]? = l[s + c + t]?) →
      l.length = s + c + (flattenRuns rs).length →
      groupFilterGo m (l.length - (s + 1)) l (s + 1) s ng
        = (l.take s ++ flattenRuns (filterRunsSpec m ((v, c) :: rs)),
           ng + countKeptRuns m ((v, c) :: rs)) := by
  intro rs
  induction rs with
  | nil =>
    intro l s v c ng hc hv _ hrunvals _ hlen
    rw [flattenRuns_nil, List.length_nil] at hlen
    have hwalk := groupFilterGo_walk m v hv (c - 1) 0 l (s + 1) s ng
      (by simpa using hrunvals 0 hc)
      (fun t ht => by
        have := hrunvals (t + 1) (by omega)
        rwa [show s + (t + 1) = s + 1 + t by omega] at this)
    rw [show l.length - (s + 1) = (c - 1) + 0 by omega, hwalk, groupFilterGo_zero]
    rw [filterRunsSpec_single, countKeptRuns_single, Prod.mk.injEq]
    refine ⟨?_, by omega⟩
    have heq : l = l.take s ++ List.replicate c v :=
      list_decomp l l s (List.replicate c v)
        (by simp; omega) (by omega)
        (fun j _ => rfl)
        (fun t ht => by
          have htc : t < c := by simpa using ht
          rw [hrunvals t htc, replicate_getElem? c v t htc])
    exact heq.trans (by simp [flattenRuns])
  | cons rr rest ih =>
    intro l s v c ng hc hv hrok hrunvals hsfx hlen
    obtain ⟨w, c2⟩ := rr
    rw [RunsOK_cons] at hrok
    obtain ⟨hc2, hwv, hw0, hwr, hrec⟩ := hrok
    replace hc2 : 0 < c2 := hc2
    replace hwv : w ≠ v := hwv
    replace hw0 : w ≤ 0 := hw0
    replace hwr : rest ≠ [] → w < 0 := hwr
    replace hrec : RunsOK w rest := hrec
    replace hsfx : ∀ t : Nat, (List.replicate c2 w ++ flattenRuns rest)[t]? = l[s + c + t]? := by
      intro t
      have h := hsfx t
      rwa [flattenRuns_cons] at h
    replace hlen : l.length = s + c + (c2 + (flattenRuns rest).length) := by
      rw [flattenRuns_cons] at hlen
      simpa using hlen
    -- the first element after the current run has value w
    have hew : l[s + c]? = some w := by
      have h := hsfx 0
      rw [List.getElem?_append_left (by simp; omega),
        replicate_getElem? c2 w 0 hc2] at h
      simpa using h.symm
    have hsv : l[s]? = some v := by simpa using hrunvals 0 hc
    have hselt : s + c < l.length := by omega
    -- walk through the remainder of the current run
    have hwalk := groupFilterGo_walk m v hv (c - 1) (l.length - (s + c)) l (s + 1) s ng
      hsv
      (fun t ht => by
        have := hrunvals (t + 1) (by omega)
        rwa [show s + (t + 1) = s + 1 + t by omega] at this)
    rw [show l.length - (s + 1) = (c - 1) + (l.length - (s + c)) by omega, hwalk,
      show s + 1 + (c - 1) = s + c by omega,
      show l.length - (s + c) = (l.length - (s + c + 1)) + 1 by omega,
      groupFilterGo_succ, if_pos hselt, idRead_eq_of_some hew, idRead_eq_of_some hsv,
      if_pos hwv,
      show ((s + c : Nat) : Int) - (s : Nat) = (c : Int) by push_cast; ring]
    by_cases hcm : (c : Int) < m
    · rw [if_pos hcm]
      have hz_e : idRead (zeroSeg l s (s + c)) (s + c) = w :=
        idRead_eq_of_some (by rw [zeroSeg_getElem?_out l s (s + c) (s + c) (by omega)]; exact hew)
      rw [hz_e]
      by_cases hw : w = 0
      · have hrest : rest = [] := by
          by_contra hne
          have := hwr hne
          omega
        subst hrest hw
        rw [if_pos (by omega), filterRunsSpec_cons2, if_pos hcm, filterRunsSpec_single,
          countKeptRuns_cons2, if_pos hcm, countKeptRuns_single, Prod.mk.injEq]
        rw [flattenRuns_nil, List.length_nil] at hlen
        refine ⟨?_, by omega⟩
        have heq : zeroSeg l s (s + c)
            = l.take s ++ (List.replicate c (0 : Int) ++ List.replicate c2 (0 : Int)) := by
          refine list_decomp _ l s _ ?_ (by omega) ?_ ?_
          · simp [zeroSeg_length]; omega
          · intro j hj
            exact zeroSeg_getElem?_out l s (s + c) j (by omega)
          · intro t ht
            simp only [List.length_append, List.length_replicate] at ht
            by_cases htc : t < c
            · rw [zeroSeg_getElem?_in l s (s + c) (s + t) (by omega) (by omega) (by omega),
                List.getElem?_append_left (by simp; omega), replicate_getElem? c 0 t htc]
            · rw [zeroSeg_getElem?_out l s (s + c) (s + t) (by omega)]
              have h2 := hsfx (t - c)
              rw [show s + c + (t - c) = s + t by omega] at h2
              rw [← h2, flattenRuns_nil, List.append_nil,
                List.getElem?_append_right (by simp; omega), List.length_replicate]
        exact heq.trans (by simp [flattenRuns])
      · have hwneg : w < 0 := by omega
        rw [if_neg (by omega)]
        have hih := ih (zeroSeg l s (s + c)) (s + c) w c2 ng hc2 hwneg hrec
          (fun t ht => by
            rw [zeroSeg_getElem?_out l s (s + c) (s + c + t) (by omega)]
            have h3 := hsfx t
            rw [List.getElem?_append_left (by simp; omega),
              replicate_getElem? c2 w t ht] at h3
            exact h3.symm)
          (fun t => by
            rw [zeroSeg_getElem?_out l s (s + c) (s + c + c2 + t) (by omega)]
            have h3 := hsfx (c2 + t)
            rwa [List.getElem?_append_right (by simp), List.length_replicate,
              show c2 + t - c2 = t by omega,
              show s + c + (c2 + t) = s + c + c2 + t by omega] at h3)
          (by rw [zeroSeg_length]; omega)
        rw [zeroSeg_length] at hih
        rw [hih, filterRunsSpec_cons2, if_pos hcm, countKeptRuns_cons2, if_pos hcm,
          Prod.mk.injEq]
        refine ⟨?_, by omega⟩
        show (zeroSeg l s (s + c)).take (s + c)
              ++ flattenRuns (filterRunsSpec m ((w, c2) :: rest))
            = l.take s ++ (List.replicate c (0 : Int)
              ++ flattenRuns (filterRunsSpec m ((w, c2) :: rest)))
        have htake : (zeroSeg l s (s + c)).take (s + c)
            = l.take s ++ List.replicate c (0 : Int) := by
          refine list_decomp _ l s _ ?_ (by omega) ?_ ?_
          · simp [zeroSeg_length]; omega
          · intro j hj
            rw [List.getElem?_take_of_lt (by omega)]
            exact zeroSeg_getElem?_out l s (s + c) j (by omega)
          · intro t ht
            simp only [List.length_replicate] at ht
            rw [List.getElem?_take_of_lt (by omega),
              zeroSeg_getElem?_in l s (s + c) (s + t) (by omega) (by omega) (by omega),
              replicate_getElem? c 0 t ht]
        rw [htake, List.append_assoc]
    · rw [if_neg hcm]
      by_cases hw : w = 0
      · have hrest : rest = [] := by
          by_contra hne
          have := hwr hne
          omega
        subst hrest hw
        rw [if_pos (by omega), filterRunsSpec_cons2, if_neg hcm, filterRunsSpec_single,
          countKeptRuns_cons2, if_neg hcm, countKeptRuns_single, Prod.mk.injEq]
        rw [flattenRuns_nil, List.length_nil] at hlen
        refine ⟨?_, by omega⟩
        have heq : l = l.take s ++ (List.replicate c v ++ List.replicate c2 (0 : Int)) := by
          refine list_decomp l l s _ ?_ (by omega) (fun j _ => rfl) ?_
          · simp; omega
          · intro t ht
            simp only [List.length_append, List.length_replicate] at ht
            by_cases htc : t < c
            · rw [hrunvals t htc, List.getElem?_append_left (by simp; omega),
                replicate_getElem? c v t htc]
            · have h2 := hsfx (t - c)
              rw [show s + c + (t - c) = s + t by omega] at h2
              rw [← h2, flattenRuns_nil, List.append_nil,
                List.getElem?_append_right (by simp; omega), List.length_replicate]
        exact heq.trans (by simp [flattenRuns])
      · have hwneg : w < 0 := by omega
        rw [if_neg (by omega)]
        have hih := ih l (s + c) w c2 (ng + 1) hc2 hwneg hrec
          (fun t ht => by
            have h3 := hsfx t
            rw [List.getElem?_append_left (by simp; omega),
              replicate_getElem? c2 w t ht] at h3
            exact h3.symm)
          (fun t => by
            have h3 := hsfx (c2 + t)
            rwa [List.getElem?_append_right (by simp), List.length_replicate,
              show c2 + t - c2 = t by omega,
              show s + c + (c2 + t) = s + c + c2 + t by omega] at h3)
          (by omega)
        rw [hih, filterRunsSpec_cons2, if_neg hcm, countKeptRuns_cons2, if_neg hcm,
          Prod.mk.injEq]
        refine ⟨?_, by omega⟩
        show l.take (s + c) ++ flattenRuns (filterRunsSpec m ((w, c2) :: rest))
            = l.take s ++ (List.replicate c v
              ++ flattenRuns (filterRunsSpec m ((w, c2) :: rest)))
        have htake : l.take (s + c) = l.take s ++ List.replicate c v := by
          refine list_decomp _ l s _ ?_ (by omega) ?_ ?_
          · simp; omega
          · intro j hj
            rw [List.getElem?_take_of_lt (by omega)]
          · intro t ht
            simp only [List.length_replicate] at ht
            rw [List.getElem?_take_of_lt (by omega), hrunvals t ht,
              replicate_getElem? c v t ht]
        rw [htake, List.append_assoc]

/-- Claim C4, amended: In `MPICompileGroups`, after the sort that places
particles with negative embedded group id first and ungrouped (id 0) particles
last, the run-counting loop resets a maximal contiguous run of `k` particles
sharing the same nonzero group id to 0 exactly when `k < minsize` — a run with
`k = minsize` is kept and counted — for every run EXCEPT the final run of the
array: the loop only processes a run when it sees the next, different id, so
the last run (reached only when no ungrouped particle follows it) is left
unfiltered and uncounted.  Stated over the run decomposition: the loop maps
`flattenRuns rs` to `flattenRuns (filterRunsSpec minsize rs)` and counts
`countKeptRuns minsize rs` groups, where `filterRunsSpec` zeroes each non-final
run shorter than `minsize` and leaves the final run untouched. -/
theorem groupFilterLoop_runs (m : Int) (v : Int) (c : Nat) (rs : List (Int × Nat))
    (hv : v < 0) (hc : 0 < c) (hr : RunsOK v rs) :
    groupFilterLoop m (flattenRuns ((v, c) :: rs))
      = (flattenRuns (filterRunsSpec m ((v, c) :: rs)), countKeptRuns m ((v, c) :: rs)) := by
  have h0 : (flattenRuns ((v, c) :: rs))[0]? = some v := by
    rw [flattenRuns_cons, List.getElem?_append_left (by simp; omega),
      replicate_getElem? c v 0 hc]
  have hlenpos : 0 < (flattenRuns ((v, c) :: rs)).length := lt_length_of_getElem?_some h0
  have hunf : groupFilterLoop m (flattenRuns ((v, c) :: rs))
      = groupFilterGo m (((flattenRuns ((v, c) :: rs)).length - 1) + 1)
          (flattenRuns ((v, c) :: rs)) 0 0 0 := by
    unfold groupFilterLoop
    congr 1
    omega
  rw [hunf, groupFilterGo_succ, if_pos hlenpos, if_neg (by simp),
    idRead_eq_of_some h0, if_neg (by omega)]
  have hmain := groupFilterGo_runs m rs (flattenRuns ((v, c) :: rs)) 0 v c 0 hc hv hr
    (fun t ht => by
      rw [show (0 : Nat) + t = t by omega, flattenRuns_cons,
        List.getElem?_append_left (by simp; omega), replicate_getElem? c v t ht])
    (fun t => by
      rw [show (0 : Nat) + c + t = c + t by omega, flattenRuns_cons,
        List.getElem?_append_right (by simp), List.length_replicate,
        show c + t - c = t by omega])
    (by rw [flattenRuns_cons]; simp)
  simpa using hmain

/-- Witness for `groupFilterLoop_runs`: ids `[-5, -3, -3, 0]` with
`minsize = 2`: the run of one `-5` (non-final, too short) is zeroed, the run of
two `-3` (non-final, length exactly `minsize`) is kept and counted as the one
group, and the final (ungrouped) run stays. -/
theorem groupFilterLoop_runs_witness :
    groupFilterLoop 2 [-5, -3, -3, 0] = ([0, -3, -3, 0], 1) := by
  have h := groupFilterLoop_runs 2 (-5) 1 [(-3, 2), ((0 : Int), 1)]
    (by norm_num) (by norm_num) (by norm_num [RunsOK])
  exact h

/-- Claim C4 counterexample: The array `[-1, -1]` (a single maximal run of two
particles in group 1, no ungrouped particle after it) with `minsize = 3`: the
claim requires the run to be reset to 0 (since `2 < 3`), but the loop leaves
the ids untouched and counts no group — the final run of the array is never
examined. -/
theorem groupFilter_final_run_counterexample :
    groupFilterLoop 3 [-1, -1] = ([-1, -1], 0) ∧ (2 : Int) < 3 ∧ ((-1 : Int) ≠ 0) :=
  ⟨by decide, by decide, by decide⟩

-- ===========================================================================
-- Mesh export planner: MPIGetCellNodeIDListInSearchUsingMesh
-- (mpiroutines.cxx:5401-5442) and the per-particle dedup loop of
-- MPIBuildParticleExportListUsingMesh (mpiroutines.cxx:3293-3308)
-- ===========================================================================

/-- Per-axis wrap of a covered cell coordinate (mpiroutines.cxx:5416-5424):
one period is added or subtracted depending on the sign, a single shift rather
than a true modulo. -/
def wrapCellCoord (N c : Int) : Int :=
  if c < 0 then N + c
  else if c ≥ N then c - N
  else c

/-- The flat cell index computed from the (possibly out-of-box) coordinates
(mpiroutines.cxx:5415-5424): `index = wrap(iz) + wrap(iy)*N + wrap(ix)*N²`. -/
def cellIndexFromCoords (N ix iy iz : Int) : Int :=
  wrapCellCoord N iz + wrapCellCoord N iy * N + wrapCellCoord N ix * N * N

/-- Inclusive integer interval `[a, b]`, the iteration space of the
`for (ix=ixstart; ix<=ixend; ix++)` loops. -/
def intRange (a b : Int) : List Int :=
  (List.range (b + 1 - a).toNat).map (fun t => a + (t : Int))

/-- Embedding of `MPIGetCellNodeIDListInSearchUsingMesh`
(mpiroutines.cxx:5401-5442): for every covered cell, push the owning process if
it differs from `thisTask`, plus any additionally associated processes
(`newcellnodeids`) other than `thisTask`. -/
def MPIGetCellNodeIDListInSearchUsingMesh (N : Int) (cellnodeids : Int → Int)
    (newcellnodeids : Int → List Int) (thisTask : Int)
    (ixs ixe iys iye izs ize : Int) : List Int :=
  (intRange ixs ixe).flatMap (fun ix =>
    (intRange iys iye).flatMap (fun iy =>
      (intRange izs ize).flatMap (fun iz =>
        (if cellnodeids (cellIndexFromCoords N ix iy iz) ≠ thisTask
         then [cellnodeids (cellIndexFromCoords N ix iy iz)] else [])
        ++ (newcellnodeids (cellIndexFromCoords N ix iy iz)).filter
             (fun c => c ≠ thisTask))))

/-- The per-particle export loop of `MPIBuildParticleExportListUsingMesh`
(mpiroutines.cxx:3297-3308): walk the candidate destination list, skipping a
destination whose `sent_mpi_domain` flag is already set and setting the flag
when a destination is recorded. -/
def exportDests : List Int → List Int → List Int
  | [], _ => []
  | d :: rest, sent =>
    if d ∈ sent then exportDests rest sent
    else d :: exportDests rest (d :: sent)

lemma exportDests_mem : ∀ (cl sent : List Int) (d : Int),
    d ∈ exportDests cl sent → d ∈ cl ∧ d ∉ sent := by
  intro cl
  induction cl with
  | nil => intro sent d h; cases h
  | cons x rest ih =>
    intro sent d h
    by_cases hx : x ∈ sent
    · rw [exportDests, if_pos hx] at h
      have := ih sent d h
      exact ⟨List.mem_cons_of_mem x this.1, this.2⟩
    · rw [exportDests, if_neg hx] at h
      rcases List.mem_cons.mp h with rfl | h2
      · exact ⟨List.mem_cons_self d rest, hx⟩
      · have := ih (x :: sent) d h2
        exact ⟨List.mem_cons_of_mem x this.1,
          fun hmem => this.2 (List.mem_cons_of_mem x hmem)⟩

lemma exportDests_nodup : ∀ (cl sent : List Int), (exportDests cl sent).Nodup := by
  intro cl
  induction cl with
  | nil => intro sent; exact List.nodup_nil
  | cons x rest ih =>
    intro sent
    by_cases hx : x ∈ sent
    · rw [exportDests, if_pos hx]
      exact ih sent
    · rw [exportDests, if_neg hx]
      refine List.Nodup.cons ?_ (ih (x :: sent))
      intro hmem
      exact (exportDests_mem rest (x :: sent) x hmem).2 (List.mem_cons_self x sent)

lemma cellNodeIDList_ne_thisTask (N thisTask : Int) (cellnodeids : Int → Int)
    (newcellnodeids : Int → List Int) (ixs ixe iys iye izs ize : Int) :
    ∀ d ∈ MPIGetCellNodeIDListInSearchUsingMesh N cellnodeids newcellnodeids
        thisTask ixs ixe iys iye izs ize, d ≠ thisTask := by
  intro d hd
  simp only [MPIGetCellNodeIDListInSearchUsingMesh, List.mem_flatMap,
    List.mem_append, List.mem_filter] at hd
  obtain ⟨ix, _, iy, _, iz, _, hcase⟩ := hd
  rcases hcase with h | h
  · by_cases hc : cellnodeids (cellIndexFromCoords N ix iy iz) ≠ thisTask
    · rw [if_pos hc] at h
      rcases List.mem_singleton.mp h with rfl
      exact hc
    · rw [if_neg hc] at h
      cases h
  · simpa using h.2

/-- Claim C5, amended: The mesh-based export planner wraps each covered cell
coordinate by a single period shift, which agrees with taking the coordinate
modulo the grid resolution exactly when the coordinate lies within one period
of the box (`-N ≤ c < 2N`, guaranteed whenever the search radius is smaller
than the box side); it never produces an export record whose destination
equals the exporting process; the per-particle `sent_mpi_domain` flags give at
most one export record per `(particle, destination)` pair even when several
covered cells map to the same owner; and consequently the planner's send-count
row has a zero diagonal entry (the exporting process records itself zero
times). -/
theorem meshExportPlanner_props (N thisTask : Int) (cellnodeids : Int → Int)
    (newcellnodeids : Int → List Int) (ixs ixe iys iye izs ize : Int)
    (hN : 0 < N) :
    (∀ c : Int, -N ≤ c → c < 2 * N → wrapCellCoord N c = c % N) ∧
    (∀ d ∈ exportDests (MPIGetCellNodeIDListInSearchUsingMesh N cellnodeids
        newcellnodeids thisTask ixs ixe iys iye izs ize) [], d ≠ thisTask) ∧
    (exportDests (MPIGetCellNodeIDListInSearchUsingMesh N cellnodeids
        newcellnodeids thisTask ixs ixe iys iye izs ize) []).Nodup ∧
    List.count thisTask (exportDests (MPIGetCellNodeIDListInSearchUsingMesh N
        cellnodeids newcellnodeids thisTask ixs ixe iys iye izs ize) []) = 0 := by
  refine ⟨?_, ?_, exportDests_nodup _ _, ?_⟩
  · intro c h1 h2
    unfold wrapCellCoord
    by_cases hc0 : c < 0
    · rw [if_pos hc0]
      have h3 : (c + N * 1) % N = c % N := Int.add_mul_emod_self_left c N 1
      have h4 : (c + N) % N = c + N := Int.emod_eq_of_lt (by omega) (by omega)
      rw [show c + N * 1 = c + N by ring] at h3
      omega
    · rw [if_neg hc0]
      by_cases hcN : c ≥ N
      · rw [if_pos hcN]
        have h3 : (c - N + N * 1) % N = (c - N) % N := Int.add_mul_emod_self_left (c - N) N 1
        have h4 : (c - N) % N = c - N := Int.emod_eq_of_lt (by omega) (by omega)
        have h5 : c - N + N * 1 = c := by ring
        rw [h5] at h3
        omega
      · rw [if_neg hcN]
        exact (Int.emod_eq_of_lt (by omega) (by omega)).symm
  · intro d hd
    exact cellNodeIDList_ne_thisTask N thisTask cellnodeids newcellnodeids
      ixs ixe iys iye izs ize d (exportDests_mem _ _ d hd).1
  · rw [List.count_eq_zero]
    intro hmem
    exact cellNodeIDList_ne_thisTask N thisTask cellnodeids newcellnodeids
      ixs ixe iys iye izs ize thisTask (exportDests_mem _ _ thisTask hmem).1 rfl

/-- Witness for `meshExportPlanner_props`: with resolution `N = 4`, the wrapped
coordinate `-1` equals `-1 mod 4 = 3`, and a planner instance records zero
exports to the local process. -/
theorem meshExportPlanner_props_witness :
    wrapCellCoord 4 (-1) = (-1 : Int) % 4 ∧
    List.count 0 (exportDests (MPIGetCellNodeIDListInSearchUsingMesh 4
        (fun _ => 1) (fun _ => []) 0 0 1 0 0 0 0) []) = 0 :=
  ⟨(meshExportPlanner_props 4 0 (fun _ => 1) (fun _ => []) 0 1 0 0 0 0
      (by decide)).1 (-1) (by decide) (by decide),
   (meshExportPlanner_props 4 0 (fun _ => 1) (fun _ => []) 0 1 0 0 0 0
      (by decide)).2.2.2⟩

/-- Claim C5 counterexample: With resolution `N = 4` and covered coordinate
`-5` (a search radius larger than the box), the single period shift yields the
out-of-range index `-1`, not the modulo value `3`: the claimed wrap "modulo the
grid resolution" fails for such radii. -/
theorem wrapCellCoord_not_modulo_counterexample :
    wrapCellCoord 4 (-5) = -1 ∧ (-5 : Int) % 4 = 3 ∧ ((-1 : Int) ≠ 3) :=
  ⟨by decide, by decide, by decide⟩

-- ===========================================================================
-- Mesh domain decomposition: the cell-to-task assignment loop of
-- MPIInitialDomainDecompositionWithMesh (mpiroutines.cxx:322-336)
-- ===========================================================================

/-- One pass of the assignment loop body (mpiroutines.cxx:325-336):
`if (count == nsub) {count = 0; itask++;} if (itask == NProcs) itask -= 1;`
then assign the cell at the current sorted rank to `itask` and `count++`. -/
def assignGo (nsub P : Nat) : Nat → Nat → Nat → List Nat
  | 0, _, _ => []
  | mleft + 1, count, itask =>
    let count1 := if count = nsub then 0 else count
    let itask1 := if count = nsub then itask + 1 else itask
    let itask2 := if itask1 = P then itask1 - 1 else itask1
    itask2 :: assignGo nsub P mleft (count1 + 1) itask2

/-- The task assigned to each cell in sorted Z-order rank
(mpiroutines.cxx:322-336): `nsub = max(floor(n3/NProcs), 1)`, starting from
`count = itask = 0`. -/
def cellTaskAssignment (n3 P : Nat) : List Nat :=
  assignGo (max (n3 / P) 1) P n3 0 0

lemma assignGo_spec (nsub P : Nat) (hns : 1 ≤ nsub) (hP : 1 ≤ P) :
    ∀ (mleft : Nat) (pos count itask : Nat),
      ((count + itask * nsub = pos ∧ count ≤ nsub ∧ itask < P) ∨
       (itask = P - 1 ∧ (P - 1) * nsub ≤ pos ∧ count ≤ nsub)) →
      ∀ t, t < mleft →
        (assignGo nsub P mleft count itask)[t]? = some (min ((pos + t) / nsub) (P - 1)) := by
  intro mleft
  induction mleft with
  | zero => intro pos count itask _ t ht; omega
  | succ mleft ih =>
    intro pos count itask hinv t ht
    by_cases hcnt : count = nsub
    · by_cases hcap : itask + 1 = P
      · have hstep : assignGo nsub P (mleft + 1) count itask
            = (P - 1) :: assignGo nsub P mleft 1 (P - 1) := by
          simp [assignGo, hcnt, hcap]
        have hval : min (pos / nsub) (P - 1) = P - 1 := by
          rcases hinv with ⟨hsum, _, hit⟩ | ⟨hit, hle, _⟩
          · have h1 : (itask + 1) * nsub = itask * nsub + nsub := Nat.succ_mul itask nsub
            have hpos : pos = (itask + 1) * nsub := by omega
            rw [hcap] at hpos
            rw [hpos, Nat.mul_div_cancel P hns]
            omega
          · have : P - 1 ≤ pos / nsub := (Nat.le_div_iff_mul_le hns).mpr hle
            omega
        have hinv2 : ((1 : Nat) + (P - 1) * nsub = pos + 1 ∧ 1 ≤ nsub ∧ P - 1 < P) ∨
            (P - 1 = P - 1 ∧ (P - 1) * nsub ≤ pos + 1 ∧ 1 ≤ nsub) := by
          right
          refine ⟨rfl, ?_, hns⟩
          rcases hinv with ⟨hsum, _, hit⟩ | ⟨_, hle, _⟩
          · have hit2 : itask = P - 1 := by omega
            subst hit2 hcnt
            omega
          · omega
        rw [hstep]
        cases t with
        | zero => simp [hval]
        | succ t1 =>
          rw [List.getElem?_cons_succ]
          have := ih (pos + 1) 1 (P - 1) hinv2 t1 (by omega)
          rwa [show pos + 1 + t1 = pos + (t1 + 1) by omega] at this
      · -- boundary, not capped
        have hstep : assignGo nsub P (mleft + 1) count itask
            = (itask + 1) :: assignGo nsub P mleft 1 (itask + 1) := by
          simp [assignGo, hcnt, hcap]
        have hA : count + itask * nsub = pos ∧ count ≤ nsub ∧ itask < P := by
          rcases hinv with h | ⟨hit, hle, _⟩
          · exact h
          · exact absurd hcap (by omega)
        have hpos : pos = (itask + 1) * nsub := by
          have h1 : (itask + 1) * nsub = itask * nsub + nsub := Nat.succ_mul itask nsub
          have h2 := hA.1
          omega
        have hval : min (pos / nsub) (P - 1) = itask + 1 := by
          rw [hpos, Nat.mul_div_cancel _ hns]
          have hit := hA.2.2
          omega
        have hinv2 : ((1 : Nat) + (itask + 1) * nsub = pos + 1 ∧ 1 ≤ nsub ∧ itask + 1 < P) ∨
            (itask + 1 = P - 1 ∧ (P - 1) * nsub ≤ pos + 1 ∧ 1 ≤ nsub) := by
          left
          refine ⟨by omega, hns, ?_⟩
          rcases Nat.lt_or_ge (itask + 1) P with h | h
          · exact h
          · exact absurd (by omega : itask + 1 = P) hcap
        rw [hstep]
        cases t with
        | zero => simp [hval]
        | succ t1 =>
          rw [List.getElem?_cons_succ]
          have := ih (pos + 1) 1 (itask + 1) hinv2 t1 (by omega)
          rwa [show pos + 1 + t1 = pos + (t1 + 1) by omega] at this
    · -- within a run
      have hncap : ¬ (itask = P) := by
        rcases hinv with ⟨_, _, hit⟩ | ⟨hit, _, _⟩ <;> omega
      have hstep : assignGo nsub P (mleft + 1) count itask
          = itask :: assignGo nsub P mleft (count + 1) itask := by
        simp [assignGo, hcnt, hncap]
      have hval : min (pos / nsub) (P - 1) = itask := by
        rcases hinv with ⟨hsum, hle, hit⟩ | ⟨hit, hle, _⟩
        · have h1 : (itask + 1) * nsub = itask * nsub + nsub := Nat.succ_mul itask nsub
          have hdiv : pos / nsub = itask :=
            Nat.div_eq_of_lt_le (by omega) (by omega)
          rw [hdiv]
          omega
        · have : P - 1 ≤ pos / nsub := (Nat.le_div_iff_mul_le hns).mpr hle
          omega
      have hinv2 : (count + 1 + itask * nsub = pos + 1 ∧ count + 1 ≤ nsub ∧ itask < P) ∨
          (itask = P - 1 ∧ (P - 1) * nsub ≤ pos + 1 ∧ count + 1 ≤ nsub) := by
        rcases hinv with ⟨hsum, hle, hit⟩ | ⟨hit, hle, hc2⟩
        · left; exact ⟨by omega, by omega, hit⟩
        · right; exact ⟨hit, by omega, by omega⟩
      rw [hstep]
      cases t with
      | zero => simp [hval]
      | succ t1 =>
        rw [List.getElem?_cons_succ]
        have := ih (pos + 1) (count + 1) itask hinv2 t1 (by omega)
        rwa [show pos + 1 + t1 = pos + (t1 + 1) by omega] at this

lemma assignGo_length (nsub P : Nat) :
    ∀ (mleft count itask : Nat), (assignGo nsub P mleft count itask).length = mleft := by
  intro mleft
  induction mleft with
  | zero => intro count itask; rfl
  | succ mleft ih => intro count itask; simp [assignGo, ih]

/-- Claim C6, amended: In the mesh domain decomposition, after sorting the cells
by their 48-bit interleaved Z-order key, cells are assigned to processes in
contiguous runs of the sorted order of `max(floor(cells/P), 1)` cells per
process (not `ceil(cells/P)`), with the last process absorbing the remainder:
the cell of sorted rank `t` goes to process `min(t / nsub, P - 1)` where
`nsub = max(cells/P, 1)` — a monotone assignment, so each process owns a
contiguous range of Z-order ranks.  In particular with `numcellsperdim = 4`
(64 cells) and `NProcs = 8` every process receives exactly 8 cells, hence at
least one. -/
theorem cellTaskAssignment_spec (n3 P : Nat) (hP : 0 < P) :
    (∀ t, t < n3 →
      (cellTaskAssignment n3 P)[t]? = some (min (t / max (n3 / P) 1) (P - 1))) ∧
    (cellTaskAssignment n3 P).length = n3 ∧
    (∀ (i j a b : Nat), i ≤ j →
      (cellTaskAssignment n3 P)[i]? = some a →
      (cellTaskAssignment n3 P)[j]? = some b → a ≤ b) ∧
    (∀ p, p < 8 → List.count p (cellTaskAssignment 64 8) = 8) := by
  have hspec := assignGo_spec (max (n3 / P) 1) P (by omega) hP n3 0 0 0
    (Or.inl ⟨by omega, by omega, hP⟩)
  refine ⟨?_, assignGo_length _ _ _ _ _, ?_, by decide⟩
  · intro t ht
    have := hspec t ht
    rwa [show (0 : Nat) + t = t by omega] at this
  · intro i j a b hij hi hj
    rw [cellTaskAssignment] at hi hj
    have hilen : i < n3 := by
      have h0 : i < (assignGo (max (n3 / P) 1) P n3 0 0).length := lt_length_of_getElem?_some hi
      rwa [assignGo_length] at h0
    have hjlen : j < n3 := by
      have h0 : j < (assignGo (max (n3 / P) 1) P n3 0 0).length := lt_length_of_getElem?_some hj
      rwa [assignGo_length] at h0
    have h1 := hspec i hilen
    have h2 := hspec j hjlen
    rw [show (0 : Nat) + i = i by omega] at h1
    rw [show (0 : Nat) + j = j by omega] at h2
    rw [h1] at hi
    rw [h2] at hj
    have ha : a = min (i / max (n3 / P) 1) (P - 1) := (Option.some.inj hi).symm
    have hb : b = min (j / max (n3 / P) 1) (P - 1) := (Option.some.inj hj).symm
    subst ha hb
    have hdd : i / max (n3 / P) 1 ≤ j / max (n3 / P) 1 := Nat.div_le_div_right hij
    omega

/-- Witness for `cellTaskAssignment_spec`: with 9 cells and 2 processes
(`nsub = max(⌊9/2⌋,1) = 4`), the cell of sorted rank 8 goes to the last
process, `min(8/4, 1) = 1`. -/
theorem cellTaskAssignment_spec_witness :
    (cellTaskAssignment 9 2)[8]? = some 1 := by
  have h := (cellTaskAssignment_spec 9 2 (by decide)).1 8 (by decide)
  exact h

/-- Claim C6 counterexample: With 9 cells and 2 processes the claim's
`⌈cells/P⌉ = 5` cells per process would give process 0 five cells, but the
code assigns runs of `max(⌊9/2⌋,1) = 4`: process 0 receives only 4 cells
(process 1 absorbs the remaining 5). -/
theorem cellTaskAssignment_ceil_counterexample :
    List.count 0 (cellTaskAssignment 9 2) = 4 ∧ (9 + 2 - 1) / 2 = 5 ∧ (4 : Nat) ≠ 5 := by
  decide

-- ===========================================================================
-- Mesh repartitioning: MPILoadBalanceWithMesh (mpiroutines.cxx:362-383) and
-- MPIRepartitionDomainDecompositionWithMesh (mpiroutines.cxx:387-444)
-- ===========================================================================

/-- The tally loop of mpiroutines.cxx:365-369:
`mpinumparts[cellnodeids[i]] += cellnodenumparts[i]` over all cells. -/
def tallyGo : List (Nat × Nat) → List Nat → List Nat
  | [], acc => acc
  | (idt, cnt) :: rest, acc => tallyGo rest (acc.set idt (acc.getD idt 0 + cnt))

/-- Per-task particle totals from the cell-to-task table and per-cell counts. -/
def MPITallyPartsPerTask (P : Nat) (ids counts : List Nat) : List Nat :=
  tallyGo (ids.zip counts) (List.replicate P 0)

/-- Embedding of `MPILoadBalanceWithMesh` (mpiroutines.cxx:362-383): the load
imbalance `(max − min) / average` over the per-task particle totals, in exact
rational arithmetic in place of the source's doubles. -/
def MPILoadBalanceWithMesh (P : Nat) (ids counts : List Nat) : Rat :=
  let mpinumparts := MPITallyPartsPerTask P ids counts
  let minval := mpinumparts.foldl min (mpinumparts.getD 0 0)
  let maxval := mpinumparts.foldl max (mpinumparts.getD 0 0)
  let ave : Rat := ((mpinumparts.foldl (fun acc x => acc + x) 0 : Nat) : Rat) / (P : Rat)
  (((maxval : Nat) : Rat) - ((minval : Nat) : Rat)) / ave

/-- Outcome of a repartition call: the (possibly re-cut) cell assignment, the
per-task particle totals of the re-cut, whether the assignment was re-cut, and
whether rank 0 aborts the job (`MPI_Abort`, mpiroutines.cxx:417-430). -/
structure RepartResult where
  cellnodeids : List Nat
  mpinumparts : List Nat
  recut : Bool
  aborted : Bool

/-- The re-cut walk over the Z-ordered cells (mpiroutines.cxx:403-414): add
each cell's count to the running total performed for the current task; when it
exceeds the optimal average and tasks remain, record the total and advance to
the next task. Returns the new assignment, the recorded per-task totals and
the trailing total (stored into the last slot by the caller, line 415). -/
def repartGo (P : Nat) (optimalave : Rat) (counts : List Nat) :
    List Nat → Nat → Nat → List Nat → List Nat → List Nat × List Nat × Nat
  | [], _, numparts, mpinp, ids => (ids, mpinp, numparts)
  | index :: rest, itask, numparts, mpinp, ids =>
    let ids2 := ids.set index itask
    let numparts2 := numparts + counts.getD index 0
    if ((numparts2 : Nat) : Rat) > optimalave ∧ itask < P - 1 then
      repartGo P optimalave counts rest (itask + 1) 0 (mpinp.set itask numparts2) ids2
    else
      repartGo P optimalave counts rest itask numparts2 mpinp ids2

/-- Embedding of `MPIRepartitionDomainDecompositionWithMesh`
(mpiroutines.cxx:387-444): re-cut only when the measured imbalance exceeds the
configured limit; after a re-cut, rank 0 aborts exactly when some task ends up
with zero particles. -/
def MPIRepartitionDomainDecompositionWithMesh (P : Nat) (limit : Rat)
    (ids counts order : List Nat) : RepartResult :=
  let loadimbalance := MPILoadBalanceWithMesh P ids counts
  if loadimbalance > limit then
    let optimalave : Rat := ((counts.foldl (fun acc x => acc + x) 0 : Nat) : Rat) / (P : Rat)
    let w := repartGo P optimalave counts order 0 0 (List.replicate P 0) ids
    let mpinp := w.2.1.set (P - 1) w.2.2
    { cellnodeids := w.1, mpinumparts := mpinp, recut := true,
      aborted := decide (0 ∈ mpinp) }
  else
    { cellnodeids := ids, mpinumparts := MPITallyPartsPerTask P ids counts,
      recut := false, aborted := false }

/-- Claim C7: `MPIRepartitionDomainDecompositionWithMesh` re-cuts the Z-ordered
cell assignment only when the measured imbalance (max minus min over average)
exceeds the configured threshold; after the re-cut it aborts the job exactly
when some process would be assigned zero particles; and when every process
receives at least one particle it returns without aborting. -/
theorem MPIRepartition_correct (P : Nat) (limit : Rat) (ids counts order : List Nat)
    (hP : 0 < P) :
    ((MPIRepartitionDomainDecompositionWithMesh P limit ids counts order).recut = true
      ↔ MPILoadBalanceWithMesh P ids counts > limit) ∧
    ((MPIRepartitionDomainDecompositionWithMesh P limit ids counts order).recut = false
      → (MPIRepartitionDomainDecompositionWithMesh P limit ids counts order).cellnodeids = ids) ∧
    ((MPIRepartitionDomainDecompositionWithMesh P limit ids counts order).aborted = true
      ↔ (MPIRepartitionDomainDecompositionWithMesh P limit ids counts order).recut = true
        ∧ 0 ∈ (MPIRepartitionDomainDecompositionWithMesh P limit ids counts order).mpinumparts) ∧
    ((∀ x ∈ (MPIRepartitionDomainDecompositionWithMesh P limit ids counts order).mpinumparts,
        1 ≤ x)
      → (MPIRepartitionDomainDecompositionWithMesh P limit ids counts order).aborted = false) := by
  unfold MPIRepartitionDomainDecompositionWithMesh
  by_cases him : MPILoadBalanceWithMesh P ids counts > limit
  · rw [if_pos him]
    simp only [decide_eq_true_eq]
    refine ⟨by simp [him], by simp, by simp, ?_⟩
    intro hall
    simp only [decide_eq_false_iff_not]
    intro h0
    have := hall 0 h0
    omega
  · rw [if_neg him]
    simp [him]

/-- Witness for `MPIRepartition_correct`: 2 tasks, counts `[3,1]` on cells
`[0,1]` in that Z-order, zero imbalance limit: the imbalance `(3-1)/2 = 1`
forces a re-cut giving totals `[3,1]`; every task has a particle, so the job
is not aborted. -/
theorem MPIRepartition_correct_witness :
    (MPIRepartitionDomainDecompositionWithMesh 2 0 [0, 1] [3, 1] [0, 1]).aborted = false := by
  have hall : ∀ x ∈ (MPIRepartitionDomainDecompositionWithMesh 2 0
      [0, 1] [3, 1] [0, 1]).mpinumparts, 1 ≤ x := by
    norm_num [MPIRepartitionDomainDecompositionWithMesh, MPILoadBalanceWithMesh,
      MPITallyPartsPerTask, tallyGo, repartGo, List.replicate_succ, List.set,
      List.foldl, List.getD, List.zip]
  exact (MPIRepartition_correct 2 0 [0, 1] [3, 1] [0, 1] (by decide)).2.2.2 hall

-- ===========================================================================
-- Extra-property side channel: receiver side of
-- MPISendReceiveHydroInfoBetweenThreads (mpiroutines.cxx:1690-1765) and
-- MPISendReceiveFOFHydroInfoBetweenThreads (mpiroutines.cxx:2921-2963)
-- ===========================================================================

/-- Receiver side of `MPISendReceiveHydroInfoBetweenThreads`
(mpiroutines.cxx:1690-1765).  A particle's extra-property handle is
`Option (List Int)` (`none` = nulled, `some vals` = a handle carrying the
`numextrafields` schema values; the float payloads are opaque here).  The
source returns before the `NullHydroProperties` loop both when the
configuration carries no extra fields (line 1694) and when zero
property-carrying indices were received (line 1735); otherwise it first nulls
every particle of the chunk (line 1740) and then reconstructs exactly the
received indices from the flat value buffer (lines 1741-1763, the three
field-name loops flattened into one schema-ordered list). -/
def MPISendReceiveHydroInfoBetweenThreads_recv (numextrafields : Nat)
    (chunk : List (Option (List Int))) (indicesrecv : List Nat)
    (proprecvbuff : List Int) : List (Option (List Int)) :=
  if numextrafields = 0 then chunk
  else if indicesrecv.length = 0 then chunk
  else
    (List.range indicesrecv.length).foldl
      (fun part i =>
        part.set (indicesrecv.getD i 0)
          (some ((List.range numextrafields).map
            (fun iextra => proprecvbuff.getD (i * numextrafields + iextra) 0))))
      (chunk.map (fun _ => (none : Option (List Int))))

/-- Receiver side of `MPISendReceiveFOFHydroInfoBetweenThreads`
(mpiroutines.cxx:2921-2963): reconstructs the received indices but performs NO
chunk-wide `NullHydroProperties` pass at all. -/
def MPISendReceiveFOFHydroInfoBetweenThreads_recv (numextrafields : Nat)
    (chunk : List (Option (List Int))) (indicesrecv : List Nat)
    (proprecvbuff : List Int) : List (Option (List Int)) :=
  if numextrafields = 0 then chunk
  else
    (List.range indicesrecv.length).foldl
      (fun part i =>
        part.set (indicesrecv.getD i 0)
          (some ((List.range numextrafields).map
            (fun iextra => proprecvbuff.getD (i * numextrafields + iextra) 0))))
      chunk

/-- Claim C8, code bug: The claim — and the source's own comment
(mpiroutines.cxx:1737-1739: the byte-copied "unique pointers will have
meaningless info so NULL them") — requires stale handles of EVERY particle in
the received chunk to be cleared regardless of how many property-carrying
indices were received, including zero.  Evaluating the embedding at a chunk of
one particle whose byte-copied handle is stale (`some [42]`) and an empty
received index list: the early return at mpiroutines.cxx:1735 leaves the stale
handle in place; and the FOF-exchange variant leaves the stale handle of a
non-received particle in place even when another index was received. -/
theorem hydroRecv_stale_handle_bug :
    MPISendReceiveHydroInfoBetweenThreads_recv 1 [some [42]] [] [] = [some [42]] ∧
    [some ([42] : List Int)] ≠ [(none : Option (List Int))] ∧
    MPISendReceiveFOFHydroInfoBetweenThreads_recv 1 [some [7], some [42]] [0] [5]
      = [some [5], some [42]] ∧
    [some ([5] : List Int), some [42]] ≠ [some ([5] : List Int), none] := by
  refine ⟨rfl, by decide, by decide, by decide⟩

-- ===========================================================================
-- Chunk-round MPI tags: MPIBuildParticleExportList (mpiroutines.cxx:3234-3250,
-- constant TAG_FOF_A / TAG_FOF_B every round) versus MPIUpdateExportList
-- (mpiroutines.cxx:4298-4308, TAG_FOF_A + ichunk)
-- ===========================================================================

/-- The tag used by round `ichunk` of a pair's chunk sequence in
`MPIUpdateExportList` (mpiroutines.cxx:4302/4305): `TAG_FOF_A + ichunk`.
`base` stands for the tag constant, whose numeric value is defined in a header
outside src/ and is irrelevant to distinctness. -/
def updateExportListRoundTags (base nrounds : Nat) : List Nat :=
  (List.range nrounds).map (fun ichunk => base + ichunk)

/-- The tag used by round `ichunk` of a pair's chunk sequence in
`MPIBuildParticleExportList` (mpiroutines.cxx:3241/3244): the constant
`TAG_FOF_A`, identical on every round (similarly `TAG_FOF_B` for the particle
payload). -/
def buildExportListRoundTags (base nrounds : Nat) : List Nat :=
  (List.range nrounds).map (fun _ => base)

/-- Claim C9, amended: In `MPIUpdateExportList` the MPI tag of round `i` of a
pair's chunk sequence is distinct from every other round's tag (tags increment
per round); but in `MPIBuildParticleExportList` the tag is the same constant
on every round of the pair's sequence, so the claim's "in particular ... in
the chunk loops of MPIBuildParticleExportList" part fails there. -/
theorem chunkRoundTags_spec (base nrounds : Nat) :
    (updateExportListRoundTags base nrounds).Nodup ∧
    (∀ t1 ∈ buildExportListRoundTags base nrounds,
     ∀ t2 ∈ buildExportListRoundTags base nrounds, t1 = t2) := by
  constructor
  · exact (List.nodup_range nrounds).map (fun i j h => by omega)
  · intro t1 h1 t2 h2
    simp only [buildExportListRoundTags, List.mem_map] at h1 h2
    obtain ⟨i1, _, rfl⟩ := h1
    obtain ⟨i2, _, rfl⟩ := h2
    rfl

/-- Claim C9 counterexample: Rounds 0 and 1 of a pair's sequence in
`MPIBuildParticleExportList` carry the same tag: the two-round tag list is
constant and has a duplicate, contradicting "the tag used for round i ... is
distinct from the tag used for every other round of that same pair". -/
theorem buildExportList_tags_counterexample :
    buildExportListRoundTags 0 2 = [0, 0] ∧ ¬ (buildExportListRoundTags 0 2).Nodup := by
  constructor
  · decide
  · decide

-- ===========================================================================
-- Sort comparators: fof_id_cmp (mpiroutines.cxx:5313-5335) versus
-- fof_id_cmp_vec (mpiroutines.cxx:5349-5361), used by MPIBaryonCompileGroups
-- (mpiroutines.cxx:4927-4953)
-- ===========================================================================

/-- One `struct fofid_in` record as seen by the comparators: the group id and
the embedded particle's type and id. -/
structure FofidIn where
  iGroup : Int
  ptype : Int
  pid : Int

/-- The legacy qsort comparator `fof_id_cmp` (mpiroutines.cxx:5313-5335):
DESCENDING by `iGroup` (so ungrouped `iGroup == 0` records sort last), then
ascending by particle type, then ascending by particle id. -/
def fof_id_cmp (a b : FofidIn) : Int :=
  if a.iGroup > b.iGroup then -1
  else if a.iGroup < b.iGroup then 1
  else if a.ptype < b.ptype then -1
  else if a.ptype > b.ptype then 1
  else if a.pid < b.pid then -1
  else if a.pid > b.pid then 1
  else 0

/-- The std::sort comparator `fof_id_cmp_vec` (mpiroutines.cxx:5349-5361) that
replaced the commented-out qsort calls (mpiroutines.cxx:4926/4940):
ASCENDING by `iGroup`, then ascending type, then ascending id. -/
def fof_id_cmp_vec (a b : FofidIn) : Bool :=
  if a.iGroup < b.iGroup then true
  else if a.iGroup > b.iGroup then false
  else if a.ptype < b.ptype then true
  else if a.ptype > b.ptype then false
  else if a.pid < b.pid then true
  else false

/-- Claim C10, code bug: The replacement comparator reverses the legacy primary
order: `fof_id_cmp` puts the record with the larger `iGroup` first
(`fof_id_cmp ⟨2⟩ ⟨1⟩ = -1`) while `fof_id_cmp_vec ⟨2⟩ ⟨1⟩ = false`, so
`fof_id_cmp a b < 0` does not imply `fof_id_cmp_vec a b`; consequently
ungrouped records (`iGroup = 0`) sort FIRST under `fof_id_cmp_vec`
(`fof_id_cmp_vec ⟨0⟩ ⟨5⟩ = true` where the legacy order put them last), so the
run-counting loop of `MPIBaryonCompileGroups`, which breaks at the first
`iGroup == 0` record, stops before visiting any grouped run. -/
theorem fof_id_cmp_vec_reverses_order :
    fof_id_cmp ⟨2, 0, 0⟩ ⟨1, 0, 0⟩ = -1 ∧
    fof_id_cmp_vec ⟨2, 0, 0⟩ ⟨1, 0, 0⟩ = false ∧
    fof_id_cmp ⟨0, 0, 0⟩ ⟨5, 0, 0⟩ = 1 ∧
    fof_id_cmp_vec ⟨0, 0, 0⟩ ⟨5, 0, 0⟩ = true := by
  refine ⟨by decide, by decide, by decide, by decide⟩
